import Mathlib

/-!
Verification of the PCoA engine (bipy/maths/stats/ordination/
principal_coordinate_analysis.py) and of the ANOSIM engine described by the
design document (only the ANOSIM test-suite ships in this tree, so the
ANOSIM statistic itself is modelled from the specification text).

Real-valued numpy arrays are embedded as rational-valued functions or lists;
the dense symmetric eigensolver (np.linalg.eigh) is external to the
repository and is treated as an oracle: the post-processing that the
repository performs on its output is embedded as a function of an arbitrary
eigenvalue list and eigenvector column list.
-/

/-- Embeds PCoA._E_matrix: squares and divides by -2 the input elementwise
(`distance_matrix * distance_matrix / -2`). -/
def E_matrix {n : ℕ} (d : Fin n → Fin n → ℚ) : Fin n → Fin n → ℚ :=
  fun i j => d i j * d i j / (-2)

/-- Per-row mean of a square matrix, as `E_matrix.mean(axis=1)` computes it. -/
def rowMean {n : ℕ} (E : Fin n → Fin n → ℚ) (i : Fin n) : ℚ :=
  (∑ j, E i j) / (n : ℚ)

/-- Per-column mean of a square matrix, as `E_matrix.mean(axis=0)` computes it. -/
def colMean {n : ℕ} (E : Fin n → Fin n → ℚ) (j : Fin n) : ℚ :=
  (∑ i, E i j) / (n : ℚ)

/-- Grand mean of all entries, as `E_matrix.mean()` computes it. -/
def matrixMean {n : ℕ} (E : Fin n → Fin n → ℚ) : ℚ :=
  (∑ i, ∑ j, E i j) / ((n : ℚ) * (n : ℚ))

/-- Embeds PCoA._F_matrix: `E_matrix - row_means - col_means + matrix_mean`
with numpy broadcasting of the row/column mean vectors. -/
def F_matrix {n : ℕ} (E : Fin n → Fin n → ℚ) : Fin n → Fin n → ℚ :=
  fun i j => E i j - rowMean E i - colMean E j + matrixMean E

/-- Embeds the start of PCoA._pcoa: the matrix that is handed to the
eigensolver is `F_matrix(E_matrix(dm))`. -/
def pcoaDecomposedMatrix {n : ℕ} (d : Fin n → Fin n → ℚ) : Fin n → Fin n → ℚ :=
  F_matrix (E_matrix d)

/-- Written from the specification text of claim C1: the E matrix is
elementwise `-(d[i][j]^2) / 2`. -/
def E_claim {n : ℕ} (d : Fin n → Fin n → ℚ) : Fin n → Fin n → ℚ :=
  fun i j => -(d i j ^ 2) / 2

/-- Written from the specification text of claim C1: the F matrix subtracts
from E the mean of row i of E and the mean of column j of E, and adds the
mean of all entries of E. -/
def F_claim {n : ℕ} (d : Fin n → Fin n → ℚ) : Fin n → Fin n → ℚ :=
  fun i j =>
    E_claim d i j - (∑ k, E_claim d i k) / (n : ℚ) - (∑ k, E_claim d k j) / (n : ℚ)
      + (∑ k, ∑ l, E_claim d k l) / ((n : ℚ) * (n : ℚ))

/-- Embeds the tolerance `EPS = 1e-10` of PCoA._pcoa. -/
def EPS : ℚ := 1 / 10 ^ 10

/-- Embeds the clamping step of PCoA._pcoa: an eigenvalue strictly between
-EPS and 0 is set to exactly 0 (`eigvals[negative_close_to_zero] = 0`);
every other value passes through unchanged. -/
def clampEigval (v : ℚ) : ℚ :=
  if -EPS < v ∧ v < 0 then 0 else v

/-- Elementwise clamping of the eigenvalue array. -/
def clampEigvals (vs : List ℚ) : List ℚ :=
  vs.map clampEigval

/-- Minimum of a list of rationals, as `eigvals.min()` computes it on a
nonempty array (the empty case never arises on the error path). -/
def listMin : List ℚ → ℚ
  | [] => 0
  | [v] => v
  | v :: w :: t => min v (listMin (w :: t))

/-- Ordering relation used to model `eigvals.argsort()[::-1]`: eigenvalue
and eigenvector column pairs are ordered by descending eigenvalue. -/
def descendingPair (p q : ℚ × List ℚ) : Prop :=
  q.1 ≤ p.1

instance : DecidableRel descendingPair :=
  fun p q => inferInstanceAs (Decidable (q.1 ≤ p.1))

instance : IsTotal (ℚ × List ℚ) descendingPair :=
  ⟨fun p q => le_total q.1 p.1⟩

instance : IsTrans (ℚ × List ℚ) descendingPair :=
  ⟨fun _ _ _ h h2 => le_trans h2 h⟩

/-- Embeds the tail of PCoA._pcoa, which post-processes the output of the
external eigensolver: clamp near-zero negative eigenvalues to 0, raise
ValueError reporting `eigvals.min()` if any eigenvalue is still negative,
otherwise reorder eigenvalues descending and apply the same index
permutation to the eigenvector columns (`eigvecs[:, idxs_descending]`).
Eigenvectors are carried as the list of their columns, so gathering columns
by the sorting permutation is sorting the zipped pairs. -/
def pcoaPostprocess (eigvals : List ℚ) (eigvecs : List (List ℚ)) :
    Except ℚ (List ℚ × List (List ℚ)) :=
  let clamped := clampEigvals eigvals
  if clamped.any (fun v => decide (v < 0)) then
    Except.error (listMin clamped)
  else
    let sorted := List.insertionSort descendingPair (clamped.zip eigvecs)
    Except.ok (sorted.map Prod.fst, sorted.map Prod.snd)

/-- Embeds PCoA.scores: `coordinates = self.eigvecs * np.sqrt(self.eigvals)`,
which scales eigenvector column j by the square root of eigenvalue j.
Eigenvectors are carried as the list of their columns; the square root is
the external numpy primitive, passed in as an oracle function. -/
def scores (sqrtFn : ℚ → ℝ) (eigvals : List ℚ) (eigvecs : List (List ℚ)) :
    List (List ℝ) :=
  (eigvecs.zip eigvals).map (fun p => p.1.map (fun x => (x : ℝ) * sqrtFn p.2))

/-- Matrix-vector product, used to state that the doubly centered matrix has
a nontrivial kernel (hence eigenvalue 0). -/
def mulVecQ {n : ℕ} (M : Fin n → Fin n → ℚ) (v : Fin n → ℚ) : Fin n → ℚ :=
  fun i => ∑ j, M i j * v j

/-- Modelled from the spec: the ANOSIM engine itself is not under src/ (only
its test suite is), so the list of unordered off-diagonal sample pairs, each
counted once, is modelled from the specification of the rank transform. -/
def pairList (n : ℕ) : List (Fin n × Fin n) :=
  (List.finRange n).flatMap
    (fun i => ((List.finRange n).filter (fun j => decide (i < j))).map (fun j => (i, j)))

/-- Modelled from the spec: the tie-aware rank of a value among a list of
values, where tied values receive the average of the ranks they would
jointly occupy (the average-rank method). -/
def tieRank (ds : List ℚ) (v : ℚ) : ℚ :=
  (ds.countP (fun u => decide (u < v)) : ℚ)
    + ((ds.countP (fun u => decide (u = v)) : ℚ) + 1) / 2

/-- Modelled from the spec: the off-diagonal pairwise distances of the
matrix, each unordered pair counted once. -/
def pairDists {n : ℕ} (dm : Fin n → Fin n → ℚ) : List ℚ :=
  (pairList n).map (fun p => dm p.1 p.2)

/-- Modelled from the spec: the tie-aware rank of the distance of one pair
among all off-diagonal pairwise distances. -/
def rankOf {n : ℕ} (dm : Fin n → Fin n → ℚ) (p : Fin n × Fin n) : ℚ :=
  tieRank (pairDists dm) (dm p.1 p.2)

/-- Modelled from the spec: the within-group pairs, whose two samples carry
the same group label. -/
def withinPairs {n : ℕ} {α : Type} [DecidableEq α] (g : Fin n → α) :
    List (Fin n × Fin n) :=
  (pairList n).filter (fun p => decide (g p.1 = g p.2))

/-- Modelled from the spec: the between-group pairs, whose two samples carry
different group labels. -/
def betweenPairs {n : ℕ} {α : Type} [DecidableEq α] (g : Fin n → α) :
    List (Fin n × Fin n) :=
  (pairList n).filter (fun p => !decide (g p.1 = g p.2))

/-- Modelled from the spec: the mean rank of a collection of pairs. -/
def meanRank {n : ℕ} (dm : Fin n → Fin n → ℚ) (ps : List (Fin n × Fin n)) : ℚ :=
  (ps.map (rankOf dm)).sum / (ps.length : ℚ)

/-- Modelled from the spec: the observed ANOSIM R statistic
`R = (r_B - r_W) / (M / 2)` with `M = n * (n - 1) / 2` the number of pairs. -/
def anosimR {n : ℕ} {α : Type} [DecidableEq α] (dm : Fin n → Fin n → ℚ)
    (g : Fin n → α) : ℚ :=
  (meanRank dm (betweenPairs g) - meanRank dm (withinPairs g))
    / (((pairList n).length : ℚ) / 2)

/-- Modelled from the spec: the statistic of one permutation trial, obtained
by relabeling the grouping along the drawn permutation of the samples and
reusing the same precomputed rank matrix. -/
def permStat {n : ℕ} {α : Type} [DecidableEq α] (dm : Fin n → Fin n → ℚ)
    (g : Fin n → α) (p : Fin n → Fin n) : ℚ :=
  anosimR dm (g ∘ p)

/-- Modelled from the spec: how many permuted statistics are greater than or
equal to the observed statistic. -/
def countGe {n : ℕ} {α : Type} [DecidableEq α] (dm : Fin n → Fin n → ℚ)
    (g : Fin n → α) (draws : List (Fin n → Fin n)) : ℕ :=
  draws.countP (fun p => decide (anosimR dm g ≤ permStat dm g p))

/-- Modelled from the spec: the packaged ANOSIM result record. -/
structure ANOSIMResult where
  methodName : String
  sampleSize : ℕ
  numGroups : ℕ
  statistic : ℚ
  pValue : Option ℚ
  permutations : ℕ

/-- Modelled from the spec: one ANOSIM invocation. The random draws of the
permutation driver are passed in explicitly, one drawn sample permutation
per trial, so the permutation count is the number of draws. The permutation
test is skipped entirely when that count is zero, in which case the p-value
is absent; otherwise the p-value is the add-one-smoothed fraction
`(count_ge + 1) / (permutations + 1)`. -/
def anosimRun {n : ℕ} {α : Type} [DecidableEq α] (dm : Fin n → Fin n → ℚ)
    (g : Fin n → α) (draws : List (Fin n → Fin n)) : ANOSIMResult :=
  ⟨"ANOSIM", n, ((List.finRange n).map g).dedup.length, anosimR dm g,
    if draws.length = 0 then none
    else some (((countGe dm g draws : ℚ) + 1) / ((draws.length : ℚ) + 1)),
    draws.length⟩

/-- The tied 4-sample distance matrix used by the ANOSIM test suite. -/
def dmTies : Fin 4 → Fin 4 → ℚ :=
  ![![0, 1, 1, 4], ![1, 0, 3, 2], ![1, 3, 0, 3], ![4, 2, 3, 0]]

/-- The two-group labelling used by the ANOSIM test suite. -/
def groupingEqual : Fin 4 → String :=
  !["Control", "Control", "Fast", "Fast"]

/-- The identity draw of the permutation driver. -/
def permId : Fin 4 → Fin 4 :=
  fun i => i

/-- A draw of the permutation driver that relabels the four samples so that
the two groups interleave, producing a permuted statistic below the
observed one. -/
def permNeg : Fin 4 → Fin 4 :=
  ![0, 2, 3, 1]

/-- A concrete sequence of 999 draws, 670 of which reproduce the observed
grouping and 329 of which interleave the groups. -/
def drawsWitness : List (Fin 4 → Fin 4) :=
  List.replicate 670 permId ++ List.replicate 329 permNeg

/-- The partition of the four tied samples into two groups, with group
labels drawn from Fin 2 instead of strings. -/
def groupingFin : Fin 4 → Fin 2 :=
  ![0, 0, 1, 1]

/-- An injective renaming of the two group labels to numeric tokens. -/
def renameFn : Fin 2 → ℕ :=
  fun i => 42 * (i : ℕ) + 7

theorem E_matrix_eq_E_claim {n : ℕ} (d : Fin n → Fin n → ℚ) (i j : Fin n) :
    E_matrix d i j = E_claim d i j := by
  unfold E_matrix E_claim
  ring

/-- C1: for every square input distance matrix d, the matrix that the PCoA
engine eigendecomposes is obtained by first forming E with
`E[i][j] = -(d[i][j]^2)/2` and then double-centering E by subtracting the
row mean and the column mean and adding back the grand mean. -/
theorem pcoa_decomposes_doubly_centered_gower {n : ℕ} (d : Fin n → Fin n → ℚ) :
    pcoaDecomposedMatrix d = F_claim d := by
  funext i j
  unfold pcoaDecomposedMatrix F_matrix F_claim rowMean colMean matrixMean
  simp only [E_matrix_eq_E_claim]

/-- C1 witness: the decomposed matrix of the tied test distance matrix has
the doubly centered Gower form. -/
theorem pcoa_decomposes_doubly_centered_gower_witness :
    pcoaDecomposedMatrix dmTies = F_claim dmTies :=
  pcoa_decomposes_doubly_centered_gower dmTies

theorem listMin_mem : ∀ l : List ℚ, l ≠ [] → listMin l ∈ l
  | [], h => absurd rfl h
  | [v], _ => by simp [listMin]
  | v :: w :: t, _ => by
    rw [listMin]
    rcases min_choice v (listMin (w :: t)) with h | h <;> rw [h]
    · exact List.mem_cons_self v (w :: t)
    · exact List.mem_cons_of_mem v (listMin_mem (w :: t) (by simp))

theorem listMin_le : ∀ l : List ℚ, ∀ v ∈ l, listMin l ≤ v
  | [], v, hv => absurd hv (List.not_mem_nil v)
  | [w], v, hv => by
    rw [List.mem_singleton] at hv
    rw [hv, listMin]
  | w :: x :: t, v, hv => by
    rw [listMin]
    rcases List.mem_cons.mp hv with h | h
    · rw [h]; exact min_le_left _ _
    · exact le_trans (min_le_right _ _) (listMin_le (x :: t) v h)

/-- C2: whenever some eigenvalue is still strictly negative after the
near-zero clamp, the post-processing reports an error identifying the
minimum eigenvalue and returns no result. -/
theorem pcoa_negative_eigval_error (eigvals : List ℚ) (eigvecs : List (List ℚ))
    (h : ∃ v ∈ clampEigvals eigvals, v < 0) :
    ∃ m : ℚ, pcoaPostprocess eigvals eigvecs = Except.error m ∧
      m ∈ clampEigvals eigvals ∧ (∀ v ∈ clampEigvals eigvals, m ≤ v) ∧ m < 0 ∧
      ∀ r, pcoaPostprocess eigvals eigvecs ≠ Except.ok r := by
  obtain ⟨v, hv, hvneg⟩ := h
  have hne : clampEigvals eigvals ≠ [] := by
    intro he
    rw [he] at hv
    exact absurd hv (List.not_mem_nil v)
  have hany : (clampEigvals eigvals).any (fun w => decide (w < 0)) = true :=
    List.any_eq_true.mpr ⟨v, hv, by simpa using hvneg⟩
  have herr : pcoaPostprocess eigvals eigvecs = Except.error (listMin (clampEigvals eigvals)) := by
    simp only [pcoaPostprocess]
    rw [hany]
    rfl
  refine ⟨listMin (clampEigvals eigvals), herr, listMin_mem _ hne, listMin_le _, ?_, ?_⟩
  · exact lt_of_le_of_lt (listMin_le _ v hv) hvneg
  · intro r hr
    rw [herr] at hr
    exact Except.noConfusion hr

/-- C2 witness: on the eigenvalue list [-1, 2] the post-processing reports
the minimum eigenvalue -1 as an error and returns no result. -/
theorem pcoa_negative_eigval_error_witness :
    ∃ m : ℚ, pcoaPostprocess [-1, 2] [[1, 0], [0, 1]] = Except.error m ∧
      m ∈ clampEigvals [-1, 2] ∧ (∀ v ∈ clampEigvals [-1, 2], m ≤ v) ∧ m < 0 ∧
      ∀ r, pcoaPostprocess [-1, 2] [[1, 0], [0, 1]] ≠ Except.ok r :=
  pcoa_negative_eigval_error [-1, 2] [[1, 0], [0, 1]]
    ⟨-1, by norm_num [clampEigvals, clampEigval, EPS], by norm_num⟩

/-- C3: the clamp sends every eigenvalue strictly within EPS of zero on the
negative side to exactly 0 and leaves every other eigenvalue unchanged. -/
theorem pcoa_clamp_spec (vs : List ℚ) (i : ℕ) (v : ℚ) (hv : vs[i]? = some v) :
    ((-EPS < v ∧ v < 0) → (clampEigvals vs)[i]? = some 0) ∧
    ((0 ≤ v ∨ v ≤ -EPS) → (clampEigvals vs)[i]? = some v) := by
  have h : (clampEigvals vs)[i]? = some (clampEigval v) := by
    simp [clampEigvals, List.getElem?_map, hv]
  constructor
  · intro hcond
    rw [h, clampEigval, if_pos hcond]
  · intro hcond
    rw [h, clampEigval, if_neg]
    rintro ⟨h1, h2⟩
    rcases hcond with h3 | h3
    · exact absurd h2 (not_lt.mpr h3)
    · exact absurd h1 (not_lt.mpr h3)

/-- C3 witness: on the list [-10^-11, 5, -1] the clamp maps the first entry
to 0 and leaves the others unchanged. -/
theorem pcoa_clamp_spec_witness :
    (clampEigvals [-(1 / 10 ^ 11), 5, -1])[0]? = some (0 : ℚ) ∧
    (clampEigvals [-(1 / 10 ^ 11), 5, -1])[1]? = some (5 : ℚ) ∧
    (clampEigvals [-(1 / 10 ^ 11), 5, -1])[2]? = some (-1 : ℚ) :=
  ⟨(pcoa_clamp_spec [-(1 / 10 ^ 11), 5, -1] 0 (-(1 / 10 ^ 11)) rfl).1
      ⟨by norm_num [EPS], by norm_num⟩,
    (pcoa_clamp_spec [-(1 / 10 ^ 11), 5, -1] 1 5 rfl).2 (Or.inl (by norm_num)),
    (pcoa_clamp_spec [-(1 / 10 ^ 11), 5, -1] 2 (-1) rfl).2 (Or.inr (by norm_num [EPS]))⟩

theorem zipFstSnd {α β : Type} : ∀ l : List (α × β), (l.map Prod.fst).zip (l.map Prod.snd) = l
  | [] => rfl
  | (a, b) :: t => by simp [zipFstSnd t]

/-- C4: on the success path the stored eigenvalues are sorted in descending
order and the eigenvector columns are carried along by exactly the same
permutation: the output value and column pairing is a permutation of the
input pairing. -/
theorem pcoa_descending_pairing (eigvals : List ℚ) (eigvecs : List (List ℚ))
    (vals : List ℚ) (vecs : List (List ℚ))
    (h : pcoaPostprocess eigvals eigvecs = Except.ok (vals, vecs)) :
    List.Sorted (fun a b => b ≤ a) vals ∧
      (vals.zip vecs).Perm ((clampEigvals eigvals).zip eigvecs) := by
  simp only [pcoaPostprocess] at h
  split at h
  · exact Except.noConfusion h
  · injection h with h2
    rw [Prod.mk.injEq] at h2
    obtain ⟨hv, hw⟩ := h2
    subst hv
    subst hw
    constructor
    · exact (List.sorted_insertionSort descendingPair
        ((clampEigvals eigvals).zip eigvecs)).map Prod.fst (fun a b hab => hab)
    · rw [zipFstSnd]
      exact List.perm_insertionSort descendingPair ((clampEigvals eigvals).zip eigvecs)

theorem pcoaPostprocess_ok_example :
    pcoaPostprocess [1, 3] [[1, 0], [0, 1]] = Except.ok ([3, 1], [[0, 1], [1, 0]]) := by
  norm_num [pcoaPostprocess, clampEigvals, clampEigval, EPS, List.insertionSort,
    List.orderedInsert, descendingPair]

/-- C4 witness: the eigenvalue list [1, 3] with identity eigenvector columns
is reordered descending with the columns following the same permutation. -/
theorem pcoa_descending_pairing_witness :
    List.Sorted (fun a b => b ≤ a) [(3 : ℚ), 1] ∧
      (([(3 : ℚ), 1]).zip [[(0 : ℚ), 1], [1, 0]]).Perm
        ((clampEigvals [1, 3]).zip [[1, 0], [0, 1]]) :=
  pcoa_descending_pairing [1, 3] [[1, 0], [0, 1]] [3, 1] [[0, 1], [1, 0]]
    pcoaPostprocess_ok_example

/-- C10: on the success path every stored eigenvalue is nonnegative, so the
square root taken by scores is always applied to a nonnegative argument. -/
theorem pcoa_success_nonneg_eigvals (eigvals : List ℚ) (eigvecs : List (List ℚ))
    (vals : List ℚ) (vecs : List (List ℚ))
    (h : pcoaPostprocess eigvals eigvecs = Except.ok (vals, vecs)) :
    ∀ v ∈ vals, 0 ≤ v := by
  simp only [pcoaPostprocess] at h
  split at h
  · exact Except.noConfusion h
  · rename_i hfalse
    injection h with h2
    rw [Prod.mk.injEq] at h2
    obtain ⟨hv, _⟩ := h2
    subst hv
    intro v hv
    obtain ⟨p, hp, hpv⟩ := List.mem_map.mp hv
    have hpmem : p ∈ (clampEigvals eigvals).zip eigvecs :=
      (List.perm_insertionSort descendingPair _).mem_iff.mp hp
    obtain ⟨a, b⟩ := p
    have hmem : a ∈ clampEigvals eigvals := (List.of_mem_zip hpmem).1
    have : ¬((clampEigvals eigvals).any fun w => decide (w < 0)) = true := hfalse
    rw [List.any_eq_true] at this
    push_neg at this
    have hne := this a hmem
    have h4 : ¬a < 0 := fun hlt => hne (decide_eq_true hlt)
    rw [← hpv]
    exact not_lt.mp h4

theorem pcoaPostprocess_ok_example2 :
    pcoaPostprocess [0, 2] [[1, 2], [3, 4]] = Except.ok ([2, 0], [[3, 4], [1, 2]]) := by
  norm_num [pcoaPostprocess, clampEigvals, clampEigval, EPS, List.insertionSort,
    List.orderedInsert, descendingPair]

/-- C10 witness: a successful run on the eigenvalue list [0, 2] stores only
nonnegative eigenvalues, here checked on both stored values. -/
theorem pcoa_success_nonneg_eigvals_witness :
    (0 : ℚ) ≤ 2 ∧ (0 : ℚ) ≤ 0 :=
  ⟨pcoa_success_nonneg_eigvals [0, 2] [[1, 2], [3, 4]] [2, 0] [[3, 4], [1, 2]]
      pcoaPostprocess_ok_example2 2 (by norm_num),
    pcoa_success_nonneg_eigvals [0, 2] [[1, 2], [3, 4]] [2, 0] [[3, 4], [1, 2]]
      pcoaPostprocess_ok_example2 0 (by norm_num)⟩

/-- C5: the coordinate matrix returned by scores is the eigenvector matrix
with column j scaled by the square root of eigenvalue j, and a column whose
eigenvalue is 0 is an all-zero coordinate axis. -/
theorem scores_scaling (sqrtFn : ℚ → ℝ) (hs : sqrtFn 0 = 0)
    (eigvals : List ℚ) (eigvecs : List (List ℚ)) (j : ℕ) (col : List ℚ) (v : ℚ)
    (hcol : eigvecs[j]? = some col) (hval : eigvals[j]? = some v) :
    (scores sqrtFn eigvals eigvecs)[j]? = some (col.map (fun x => (x : ℝ) * sqrtFn v)) ∧
    (v = 0 → ∀ y ∈ col.map (fun x => (x : ℝ) * sqrtFn v), y = 0) := by
  have hz : (eigvecs.zip eigvals)[j]? = some (col, v) :=
    List.getElem?_zip_eq_some.mpr ⟨hcol, hval⟩
  constructor
  · simp [scores, List.getElem?_map, hz]
  · intro hv0 y hy
    obtain ⟨x, _, hxy⟩ := List.mem_map.mp hy
    rw [← hxy, hv0, hs, mul_zero]

/-- C5 witness: with the real square root as the external primitive, the
column of eigenvalue 0 of a one-column eigenvector matrix is all zero. -/
theorem scores_scaling_witness :
    (scores (fun q => Real.sqrt (q : ℝ)) [0] [[1, 2]])[0]? =
      some (([1, 2] : List ℚ).map (fun x => (x : ℝ) * Real.sqrt ((0 : ℚ) : ℝ))) ∧
    ((0 : ℚ) = 0 →
      ∀ y ∈ ([1, 2] : List ℚ).map (fun x => (x : ℝ) * Real.sqrt ((0 : ℚ) : ℝ)), y = 0) :=
  scores_scaling (fun q => Real.sqrt (q : ℝ)) (by simp) [0] [[1, 2]] 0 [1, 2] 0 rfl rfl

/-- C6: for every distance matrix on at least two samples, the doubly
centered matrix handed to the eigensolver annihilates the all-ones vector,
so 0 is one of its eigenvalues exactly, and the clamp keeps a zero
eigenvalue at exactly 0. -/
theorem pcoa_zero_eigenvalue {n : ℕ} (hn : 2 ≤ n) (d : Fin n → Fin n → ℚ) :
    ∃ v : Fin n → ℚ, v ≠ 0 ∧ (∀ i, mulVecQ (pcoaDecomposedMatrix d) v i = 0) ∧
      clampEigval 0 = 0 := by
  refine ⟨fun _ => 1, ?_, ?_, ?_⟩
  · intro hcontra
    have h0 := congrFun hcontra ⟨0, by omega⟩
    simp at h0
  · intro i
    have hnq : (n : ℚ) ≠ 0 := Nat.cast_ne_zero.mpr (by omega)
    simp only [mulVecQ, pcoaDecomposedMatrix, F_matrix, rowMean, colMean, matrixMean,
      mul_one]
    rw [Finset.sum_add_distrib, Finset.sum_sub_distrib, Finset.sum_sub_distrib]
    rw [Finset.sum_const, Finset.card_univ, Fintype.card_fin]
    rw [Finset.sum_const, Finset.card_univ, Fintype.card_fin]
    rw [← Finset.sum_div, Finset.sum_comm]
    field_simp
    ring
  · rw [clampEigval, if_neg]
    rintro ⟨_, h2⟩
    exact absurd h2 (lt_irrefl 0)

/-- C6 witness: the doubly centered matrix of the tied 4-sample test matrix
annihilates the all-ones vector. -/
theorem pcoa_zero_eigenvalue_witness :
    ∃ v : Fin 4 → ℚ, v ≠ 0 ∧ (∀ i, mulVecQ (pcoaDecomposedMatrix dmTies) v i = 0) ∧
      clampEigval 0 = 0 :=
  pcoa_zero_eigenvalue (by norm_num) dmTies

theorem withinPairs_rename {n : ℕ} {α β : Type} [DecidableEq α] [DecidableEq β]
    (g : Fin n → α) (f : α → β) (hf : Function.Injective f) :
    withinPairs (f ∘ g) = withinPairs g := by
  unfold withinPairs
  apply List.filter_congr
  intro p _
  simp only [Function.comp_apply]
  exact decide_eq_decide.mpr hf.eq_iff

theorem betweenPairs_rename {n : ℕ} {α β : Type} [DecidableEq α] [DecidableEq β]
    (g : Fin n → α) (f : α → β) (hf : Function.Injective f) :
    betweenPairs (f ∘ g) = betweenPairs g := by
  unfold betweenPairs
  apply List.filter_congr
  intro p _
  simp only [Function.comp_apply]
  rw [decide_eq_decide.mpr hf.eq_iff]

theorem anosimR_rename {n : ℕ} {α β : Type} [DecidableEq α] [DecidableEq β]
    (dm : Fin n → Fin n → ℚ) (g : Fin n → α) (f : α → β)
    (hf : Function.Injective f) :
    anosimR dm (f ∘ g) = anosimR dm g := by
  unfold anosimR
  rw [withinPairs_rename g f hf, betweenPairs_rename g f hf]

theorem permStat_rename {n : ℕ} {α β : Type} [DecidableEq α] [DecidableEq β]
    (dm : Fin n → Fin n → ℚ) (g : Fin n → α) (f : α → β)
    (hf : Function.Injective f) (p : Fin n → Fin n) :
    permStat dm (f ∘ g) p = permStat dm g p := by
  unfold permStat
  have hcomp : (f ∘ g) ∘ p = f ∘ (g ∘ p) := rfl
  rw [hcomp, anosimR_rename dm (g ∘ p) f hf]

theorem countGe_rename {n : ℕ} {α β : Type} [DecidableEq α] [DecidableEq β]
    (dm : Fin n → Fin n → ℚ) (g : Fin n → α) (f : α → β)
    (hf : Function.Injective f) (draws : List (Fin n → Fin n)) :
    countGe dm (f ∘ g) draws = countGe dm g draws := by
  unfold countGe
  refine List.countP_congr ?_
  intro p _
  rw [anosimR_rename dm g f hf, permStat_rename dm g f hf p]

/-- C8: replacing every group label by its image under an injective renaming
leaves the R statistic bit-identical and, for the same permutation draws,
the p-value identical. -/
theorem anosim_rename_invariant {n : ℕ} {α β : Type} [DecidableEq α] [DecidableEq β]
    (dm : Fin n → Fin n → ℚ) (g : Fin n → α) (f : α → β)
    (hf : Function.Injective f) (draws : List (Fin n → Fin n)) :
    (anosimRun dm (f ∘ g) draws).statistic = (anosimRun dm g draws).statistic ∧
    (anosimRun dm (f ∘ g) draws).pValue = (anosimRun dm g draws).pValue := by
  constructor
  · simp only [anosimRun]
    exact anosimR_rename dm g f hf
  · simp only [anosimRun]
    rw [countGe_rename dm g f hf draws]

/-- C8 witness: renaming the two Fin 2 group labels to the numeric tokens 7
and 49 leaves the statistic and the p-value of a one-draw run unchanged. -/
theorem anosim_rename_invariant_witness :
    (anosimRun dmTies (renameFn ∘ groupingFin) [permNeg]).statistic =
      (anosimRun dmTies groupingFin [permNeg]).statistic ∧
    (anosimRun dmTies (renameFn ∘ groupingFin) [permNeg]).pValue =
      (anosimRun dmTies groupingFin [permNeg]).pValue :=
  anosim_rename_invariant dmTies groupingFin renameFn (by decide) [permNeg]

theorem anosimR_dmTies : anosimR dmTies groupingEqual = 1 / 4 := by
  have hb : betweenPairs groupingEqual = [(0, 2), (0, 3), (1, 2), (1, 3)] := by decide
  have hw : withinPairs groupingEqual = [(0, 1), (2, 3)] := by decide
  have hd : pairDists dmTies = [1, 1, 4, 3, 2, 3] := by decide
  have hl : (pairList 4).length = 6 := by decide
  simp only [anosimR, meanRank, hb, hw, hl, List.map, rankOf, hd, tieRank]
  norm_num [dmTies]

theorem permStat_dmTies_neg : permStat dmTies groupingEqual permNeg = -(7 / 8) := by
  have hb : betweenPairs (groupingEqual ∘ permNeg) = [(0, 1), (0, 2), (1, 3), (2, 3)] := by
    decide
  have hw : withinPairs (groupingEqual ∘ permNeg) = [(0, 3), (1, 2)] := by decide
  have hd : pairDists dmTies = [1, 1, 4, 3, 2, 3] := by decide
  have hl : (pairList 4).length = 6 := by decide
  simp only [permStat, anosimR, meanRank, hb, hw, hl, List.map, rankOf, hd, tieRank]
  norm_num [dmTies]

theorem countGe_drawsWitness : countGe dmTies groupingEqual drawsWitness = 670 := by
  have e1 := anosimR_dmTies
  have e3 : permStat dmTies groupingEqual permId = 1 / 4 := anosimR_dmTies
  have hT : anosimR dmTies groupingEqual ≤ permStat dmTies groupingEqual permId :=
    le_of_eq (e1.trans e3.symm)
  have hF : ¬anosimR dmTies groupingEqual ≤ permStat dmTies groupingEqual permNeg := by
    rw [e1, permStat_dmTies_neg]
    norm_num
  unfold countGe drawsWitness
  rw [List.countP_append, List.countP_replicate, List.countP_replicate]
  simp only [decide_eq_true hT, decide_eq_false hF]
  simp

/-- C7: a run on the tied 4-sample matrix with the two equal groups, 999
draws and 670 permuted statistics at or above the observed one yields
exactly R = 0.25 and p = 0.671; the result is a function of the inputs and
the draws alone, so identical draws reproduce it identically. -/
theorem anosim_ties_deterministic (draws : List (Fin 4 → Fin 4))
    (hlen : draws.length = 999)
    (hcount : countGe dmTies groupingEqual draws = 670) :
    (anosimRun dmTies groupingEqual draws).statistic = 1 / 4 ∧
    (anosimRun dmTies groupingEqual draws).pValue = some (671 / 1000) ∧
    (anosimRun dmTies groupingEqual draws).permutations = 999 := by
  refine ⟨anosimR_dmTies, ?_, hlen⟩
  simp only [anosimRun]
  rw [hcount, hlen, if_neg (by norm_num)]
  norm_num

/-- C7 witness: a concrete sequence of 999 draws with 670 of the permuted
statistics at or above the observed one produces exactly R = 0.25 and
p = 0.671. -/
theorem anosim_ties_deterministic_witness :
    (anosimRun dmTies groupingEqual drawsWitness).statistic = 1 / 4 ∧
    (anosimRun dmTies groupingEqual drawsWitness).pValue = some (671 / 1000) ∧
    (anosimRun dmTies groupingEqual drawsWitness).permutations = 999 :=
  anosim_ties_deterministic drawsWitness
    (by
      unfold drawsWitness
      rw [List.length_append, List.length_replicate, List.length_replicate])
    countGe_drawsWitness

/-- C9: with zero permutation draws the permutation test is skipped, the
p-value is absent, the R statistic is still computed and reported, and the
reported permutation count is 0; with any nonzero number of draws the
p-value is present. -/
theorem anosim_no_permutations {n : ℕ} {α : Type} [DecidableEq α]
    (dm : Fin n → Fin n → ℚ) (g : Fin n → α) :
    (anosimRun dm g []).pValue = none ∧
    (anosimRun dm g []).statistic = anosimR dm g ∧
    (anosimRun dm g []).permutations = 0 ∧
    ∀ draws : List (Fin n → Fin n), draws ≠ [] → (anosimRun dm g draws).pValue ≠ none := by
  refine ⟨rfl, rfl, rfl, ?_⟩
  intro draws hne
  simp only [anosimRun]
  rw [if_neg (fun h => hne (List.length_eq_zero.mp h))]
  exact Option.some_ne_none _

/-- C9 witness: the zero-permutation run on the tied test matrix has an
absent p-value, the computed R statistic and permutation count 0. -/
theorem anosim_no_permutations_witness :
    (anosimRun dmTies groupingEqual []).pValue = none ∧
    (anosimRun dmTies groupingEqual []).statistic = anosimR dmTies groupingEqual ∧
    (anosimRun dmTies groupingEqual []).permutations = 0 ∧
    ∀ draws : List (Fin 4 → Fin 4), draws ≠ [] →
      (anosimRun dmTies groupingEqual draws).pValue ≠ none :=
  anosim_no_permutations dmTies groupingEqual
